import Mathlib

/-!
Shallow embedding of riff-dag-tui (src/main.rs): the graph store, the JSONL
event loader, the depth-limited neighborhood layering, the spatial layout
projector, and the interactive session state machine.

Modelling conventions:
- Rust strings are lists of characters; Rust's to_lowercase and trim are
  modelled per character with Char.toLower and Char.isWhitespace (they agree
  on ASCII data, which is all these claims exercise).
- petgraph's StableDiGraph (no deletions ever happen) is an arena list of
  node payloads (NodeIndex = list position), an id-to-index map, and the
  edge list in insertion order; neighbors_directed returns neighbors in
  reverse edge-insertion order, modelled by filtering the edge list and
  reversing.
- The f64 coordinates of layout_nodes are modelled exactly over the
  rationals: every operation involved (sums of small integers, halving a
  small integer) is exact in IEEE double precision, so the rational model
  agrees with the f64 computation bit for bit.
-/

/-- Node payload: the five fields of NodeData in main.rs. -/
structure NodeData where
  id : List Char
  label : List Char
  span : List Char
  tags : List (List Char)
  ts : List Char
  deriving DecidableEq, Repr

/-- Graph store (GraphModel in main.rs): arena of node payloads (index =
position, matching StableDiGraph node indices with no deletions), the
id-to-index map, and the directed edge list in insertion order. -/
structure GraphModel where
  nodes : List NodeData
  indices : List (List Char × Nat)
  edges : List (Nat × Nat)
  deriving DecidableEq, Repr

/-- The empty store (GraphModel::new). -/
def GraphModel.empty : GraphModel := { nodes := [], indices := [], edges := [] }

/-- GraphModel::upsert_node: overwrite the payload in place when the id is
already mapped, otherwise append a fresh node and record its index. -/
def upsertNode (gm : GraphModel) (id : List Char) (nd : NodeData) : GraphModel :=
  match gm.indices.lookup id with
  | some idx => { gm with nodes := gm.nodes.set idx nd }
  | none =>
      { gm with
        nodes := gm.nodes ++ [nd],
        indices := gm.indices ++ [(id, gm.nodes.length)] }

/-- GraphModel::ensure_node_id: return the existing index or upsert a stub
node with empty fields. -/
def ensureNodeId (gm : GraphModel) (id : List Char) : GraphModel :=
  match gm.indices.lookup id with
  | some _ => gm
  | none => upsertNode gm id { id := id, label := [], span := [], tags := [], ts := [] }

/-- GraphModel::add_edge: append the edge only when both ids are mapped. -/
def addEdge (gm : GraphModel) (f t : List Char) : GraphModel :=
  match gm.indices.lookup f, gm.indices.lookup t with
  | some a, some b => { gm with edges := gm.edges ++ [(a, b)] }
  | _, _ => gm

/-- Neighbors on the Incoming side (GraphModel::parents_of); petgraph walks
a node's incoming edges most-recently-inserted first. -/
def parentsOf (gm : GraphModel) (i : Nat) : List Nat :=
  ((gm.edges.filter (fun e => e.2 == i)).map Prod.fst).reverse

/-- Neighbors on the Outgoing side (GraphModel::children_of). -/
def childrenOf (gm : GraphModel) (i : Nat) : List Nat :=
  ((gm.edges.filter (fun e => e.1 == i)).map Prod.snd).reverse

/-- GraphModel::degree. -/
def degreeOf (gm : GraphModel) (i : Nat) : Nat × Nat :=
  ((parentsOf gm i).length, (childrenOf gm i).length)

/-- Store enumeration order: graph.node_indices() of a StableDiGraph that
never deletes is 0, 1, ..., n-1 in order. -/
def nodeIndices (gm : GraphModel) : List Nat :=
  List.range gm.nodes.length

/-- Whether an id is mapped in the store (indices.contains_key). -/
def hasNodeId (gm : GraphModel) (id : List Char) : Bool :=
  (gm.indices.lookup id).isSome

/-- One parsed line of the JSONL input (EventLine in main.rs), after the
loader's unwrap_or_default on the optional node fields. -/
inductive EventLine where
  | node (id label span : List Char) (tags : List (List Char)) (ts : List Char)
  | edge (f t : List Char)
  deriving DecidableEq, Repr

/-- Processing one parsed event inside load_graph_from_jsonl: a node event
is upserted; an edge event is added only when both endpoints are already
present, otherwise the store is left unchanged (a warning is printed). -/
def loadStep (gm : GraphModel) : EventLine → GraphModel
  | EventLine.node id label span tags ts =>
      upsertNode gm id { id := id, label := label, span := span, tags := tags, ts := ts }
  | EventLine.edge f t =>
      if hasNodeId gm f && hasNodeId gm t then addEdge gm f t else gm

/-- load_graph_from_jsonl restricted to its parsed events (blank and
malformed lines alter nothing and are dropped by the parse stage). -/
def loadEvents (es : List EventLine) : GraphModel :=
  es.foldl loadStep GraphModel.empty

/-- Abbreviation for building a node event with only an id. -/
def nodeEv (id : List Char) : EventLine := EventLine.node id [] [] [] []

/-- The per-step accumulation of build_layered_dag_text / layout_nodes:
push p onto the layer unless it is already there. -/
def insUniq (layer : List Nat) (p : Nat) : List Nat :=
  if p ∈ layer then layer else layer ++ [p]

/-- One BFS step: walk the frontier in order, and for each member append
its neighbors (in adjacency order) to the layer, deduplicated within the
layer. The code pushes every accepted node to both layer and next in
lockstep, so the next frontier equals the layer. -/
def stepLayer (nbrs : Nat → List Nat) (frontier : List Nat) : List Nat :=
  frontier.foldl (fun layer n => (nbrs n).foldl insUniq layer) []

/-- The depth-bounded layering loop of build_layered_dag_text and
layout_nodes: at most depth steps, stopping early at an empty layer. -/
def buildLoop (nbrs : Nat → List Nat) : Nat → List Nat → List (List Nat) → List (List Nat)
  | 0, _, acc => acc
  | Nat.succ d, frontier, acc =>
      let layer := stepLayer nbrs frontier
      if layer = [] then acc else buildLoop nbrs d layer (acc ++ [layer])

/-- Layers in one direction, starting from the singleton frontier of the
focal node. -/
def buildLayers (nbrs : Nat → List Nat) (center : Nat) (depth : Nat) : List (List Nat) :=
  buildLoop nbrs depth [center] []

/-- The parents_layers computed in build_layered_dag_text / layout_nodes
(innermost first: index 0 holds the depth-1 ancestors). -/
def parentsLayers (gm : GraphModel) (center : Nat) (depth : Nat) : List (List Nat) :=
  buildLayers (parentsOf gm) center depth

/-- The children_layers computed in build_layered_dag_text / layout_nodes
(index 0 holds the depth-1 descendants). -/
def childrenLayers (gm : GraphModel) (center : Nat) (depth : Nat) : List (List Nat) :=
  buildLayers (childrenOf gm) center depth

/-- Session mode (Mode in main.rs). -/
inductive AppMode where
  | normal
  | filtering
  | helpOverlay
  deriving DecidableEq, Repr

/-- DAG panel view mode (DagViewMode in main.rs). -/
inductive DagViewMode where
  | text
  | canvas
  deriving DecidableEq, Repr

/-- The session state (struct App in main.rs, without the two wall-clock
tick fields, which no transition of the state machine reads or writes
except to schedule redraws). list_state.selected() is the selection. -/
structure App where
  gm : GraphModel
  order : List Nat
  selected : Option Nat
  filter_text : List Char
  mode : AppMode
  dag_view_mode : DagViewMode
  deriving DecidableEq, Repr

/-- App::new: full enumeration, first row selected when nonempty. -/
def appNew (gm : GraphModel) : App :=
  { gm := gm,
    order := nodeIndices gm,
    selected := if gm.nodes.length = 0 then none else some 0,
    filter_text := [],
    mode := AppMode.normal,
    dag_view_mode := DagViewMode.text }

/-- Per-character model of str::to_lowercase. -/
def lcS (s : List Char) : List Char := s.map Char.toLower

/-- Model of str::trim: drop whitespace from both ends. -/
def trimS (s : List Char) : List Char :=
  ((s.dropWhile Char.isWhitespace).reverse.dropWhile Char.isWhitespace).reverse

/-- Whether q is a prefix of s, as a boolean. -/
def isPfx : List Char → List Char → Bool
  | [], _ => true
  | _ :: _, [] => false
  | a :: xs, b :: ys => a == b && isPfx xs ys

/-- Model of str::contains: q occurs as a contiguous substring of s. -/
def containsSub : List Char → List Char → Bool
  | [], q => q.isEmpty
  | c :: rest, q => isPfx q (c :: rest) || containsSub rest q

/-- The haystack built in App::apply_filter: the four fields joined by
single spaces (format with four {} slots), lowercased. -/
def haystack (nd : NodeData) : List Char :=
  lcS (nd.id ++ [' '] ++ nd.label ++ [' '] ++ nd.span ++ [' '] ++ List.intercalate [' '] nd.tags)

/-- The filter predicate applied to one store index. -/
def matchesIdx (gm : GraphModel) (i : Nat) (q : List Char) : Bool :=
  match gm.nodes.get? i with
  | some nd => containsSub (haystack nd) q
  | none => false

/-- The reset-selection block at the end of App::apply_filter: none when
the list is empty, otherwise the previous index (or 0) clamped to the last
valid index. -/
def clampSel (o : List Nat) (prev : Option Nat) : Option Nat :=
  if o.length = 0 then none else some (min (prev.getD 0) (o.length - 1))

/-- App::apply_filter: normalize the query, recompute the visible order,
store the normalized text, and clamp the selection into range. -/
def applyFilter (app : App) (query : List Char) : App :=
  let q := lcS (trimS query)
  let order := if q = [] then nodeIndices app.gm
               else (nodeIndices app.gm).filter (fun i => matchesIdx app.gm i q)
  { app with filter_text := q, order := order, selected := clampSel order app.selected }

/-- App::on_up: wrap to the last row from row 0. -/
def onUp (app : App) : App :=
  if app.order = [] then app
  else
    let i := app.selected.getD 0
    let j := if i = 0 then app.order.length - 1 else i - 1
    { app with selected := some j }

/-- App::on_down: wrap to row 0 from the last row. -/
def onDown (app : App) : App :=
  if app.order = [] then app
  else
    let i := app.selected.getD 0
    let j := if app.order.length - 1 ≤ i then 0 else i + 1
    { app with selected := some j }

/-- App::toggle_dag_view. -/
def toggleDagView (app : App) : App :=
  { app with
    dag_view_mode :=
      match app.dag_view_mode with
      | DagViewMode.text => DagViewMode.canvas
      | DagViewMode.canvas => DagViewMode.text }

/-- Key codes the handler distinguishes (crossterm KeyCode, collapsed to
the arms handle_key matches on). -/
inductive KCode where
  | char (c : Char)
  | up
  | down
  | esc
  | enter
  | backspace
  | tab
  | other
  deriving DecidableEq, Repr

/-- A key event: code plus whether CONTROL is held. -/
structure KeyEv where
  code : KCode
  ctrl : Bool
  deriving DecidableEq, Repr

/-- handle_key in main.rs: dispatch on mode then key; the boolean is the
quit signal. -/
def handleKey (app : App) (k : KeyEv) : App × Bool :=
  match app.mode with
  | AppMode.normal =>
      match k.code with
      | KCode.char c =>
          if c = 'q' then (app, true)
          else if c = 'k' then (onUp app, false)
          else if c = 'j' then (onDown app, false)
          else if c = '/' then ({ app with mode := AppMode.filtering }, false)
          else if c = 'c' then (applyFilter app [], false)
          else if c = '?' then ({ app with mode := AppMode.helpOverlay }, false)
          else (app, false)
      | KCode.up => (onUp app, false)
      | KCode.down => (onDown app, false)
      | KCode.tab => (toggleDagView app, false)
      | _ => (app, false)
  | AppMode.filtering =>
      match k.code with
      | KCode.esc => ({ app with mode := AppMode.normal }, false)
      | KCode.enter => ({ app with mode := AppMode.normal }, false)
      | KCode.backspace =>
          let ft := app.filter_text.dropLast
          (applyFilter { app with filter_text := ft } ft, false)
      | KCode.char c =>
          if k.ctrl then (app, false)
          else
            let ft := app.filter_text ++ [c]
            (applyFilter { app with filter_text := ft } ft, false)
      | _ => (app, false)
  | AppMode.helpOverlay =>
      match k.code with
      | KCode.esc => ({ app with mode := AppMode.normal }, false)
      | KCode.char c =>
          if c = '?' then ({ app with mode := AppMode.normal }, false) else (app, false)
      | _ => (app, false)

/-- The state after one key event, quit signal discarded. -/
def stepKey (app : App) (k : KeyEv) : App := (handleKey app k).1

/-- Selection sanity: the selected index, when present, is in range, and it
is absent exactly when the visible order is empty. -/
def selOk (app : App) : Bool :=
  match app.selected with
  | none => app.order.isEmpty
  | some i => decide (i < app.order.length)

/-- Place the members of one layer at a fixed column x, starting at the
vertical position yStart and descending one unit per member; mirrors
y = 25.0 - layer.len()/2.0 + node_idx with yStart the node_idx = 0 value. -/
def placeLayerAux (x yStart : ℚ) : List Nat → List (Nat × (ℚ × ℚ))
  | [] => []
  | n :: rest => (n, (x, yStart)) :: placeLayerAux x (yStart + 1) rest

/-- Place one layer in its column: y runs from 25 - k/2 upward by one unit
per member, k the layer size. -/
def placeLayer (x : ℚ) (layer : List Nat) : List (Nat × (ℚ × ℚ)) :=
  placeLayerAux x (25 - (layer.length : ℚ) / 2) layer

/-- Place a run of layers in columns x0, x0 + colStep, x0 + 2 colStep, ... -/
def placeLayers (x0 colStep : ℚ) : List (List Nat) → List (Nat × (ℚ × ℚ))
  | [] => []
  | l :: rest => placeLayer x0 l ++ placeLayers (x0 + colStep) colStep rest

/-- layout_nodes in main.rs: parent layers reversed into columns starting
at x = 10 with step 15, the focal node at (50, 25), child layers into
columns starting at x = 70 with step 15. The list records HashMap inserts
in program order; a later insert for the same node overwrites an earlier
one. -/
def layoutNodes (gm : GraphModel) (center : Nat) (depth : Nat) : List (Nat × (ℚ × ℚ)) :=
  placeLayers 10 15 (parentsLayers gm center depth).reverse
    ++ (center, ((50 : ℚ), (25 : ℚ)))
    :: placeLayers 70 15 (childrenLayers gm center depth)

/-- Reading the positions HashMap: the last insert for a key wins. -/
def findPos (ps : List (Nat × (ℚ × ℚ))) (n : Nat) : Option (ℚ × ℚ) :=
  ps.reverse.lookup n

/-- Concrete store with nodes a, b, c and edges a → b, a → c, b → c (the
diamond-free double path a → c and a → b → c). -/
def gmABC : GraphModel :=
  loadEvents
    [nodeEv ['a'], nodeEv ['b'], nodeEv ['c'],
     EventLine.edge ['a'] ['b'], EventLine.edge ['a'] ['c'], EventLine.edge ['b'] ['c']]

/-- Concrete store with nodes a, b and the single edge a → b. -/
def gmAB : GraphModel :=
  loadEvents [nodeEv ['a'], nodeEv ['b'], EventLine.edge ['a'] ['b']]

/-- Store holding the single node a. -/
def gmA : GraphModel := loadEvents [nodeEv ['a']]

/-- A replacement payload for id a with all five fields nonempty. -/
def ndA2 : NodeData :=
  { id := ['a'], label := ['l'], span := ['s'], tags := [['t']], ts := ['1'] }

/-- Every Store state has at most one node whose payload carries a given
id: distinct arena slots never hold the same id. -/
def UniqueIds (gm : GraphModel) : Prop :=
  ∀ j k nd nd2, gm.nodes.get? j = some nd → gm.nodes.get? k = some nd2 →
    nd.id = nd2.id → j = k

/-- The id map points at a slot whose payload carries that id. -/
def IndexConsistent (gm : GraphModel) : Prop :=
  ∀ id idx, gm.indices.lookup id = some idx →
    ∃ nd, gm.nodes.get? idx = some nd ∧ nd.id = id

/-- Setting slot i then reading slot i gives the new value when in range. -/
theorem get?_set_self {α : Type} :
    ∀ (l : List α) (i : Nat) (a : α), i < l.length → (l.set i a).get? i = some a := by
  intro l
  induction l with
  | nil => intro i a h; simp at h
  | cons x xs ih =>
      intro i a h
      cases i with
      | zero => rfl
      | succ j => exact ih j a (Nat.lt_of_succ_lt_succ h)

/-- Setting slot i leaves every other slot unchanged. -/
theorem get?_set_other {α : Type} :
    ∀ (l : List α) (i j : Nat) (a : α), i ≠ j → (l.set i a).get? j = l.get? j := by
  intro l
  induction l with
  | nil => intro i j a _; simp
  | cons x xs ih =>
      intro i j a hij
      cases i with
      | zero =>
          cases j with
          | zero => exact absurd rfl hij
          | succ j2 => rfl
      | succ i2 =>
          cases j with
          | zero => rfl
          | succ j2 => exact ih i2 j2 a (fun hc => hij (congrArg Nat.succ hc))

/-- A successful association-list lookup exhibits a member pair. -/
theorem lookup_mem {α β : Type} [BEq α] [LawfulBEq α] :
    ∀ {l : List (α × β)} {a : α} {b : β}, l.lookup a = some b → (a, b) ∈ l := by
  intro l
  induction l with
  | nil => intro a b h; simp [List.lookup] at h
  | cons p rest ih =>
      intro a b h
      obtain ⟨p1, p2⟩ := p
      rw [List.lookup] at h
      cases hab : (a == p1) with
      | true =>
          rw [hab] at h
          have h2 : some p2 = some b := h
          have ha : a = p1 := eq_of_beq hab
          have hb : p2 = b := Option.some.inj h2
          rw [ha, ← hb]
          exact List.mem_cons_self _ _
      | false =>
          rw [hab] at h
          have h2 : List.lookup a rest = some b := h
          exact List.mem_cons_of_mem _ (ih h2)

/-- On an association list with no duplicate keys, lookup finds any member
pair. -/
theorem lookup_eq_of_mem_nodup {α β : Type} [BEq α] [LawfulBEq α] :
    ∀ {l : List (α × β)} {a : α} {b : β},
      (l.map Prod.fst).Nodup → (a, b) ∈ l → l.lookup a = some b := by
  intro l
  induction l with
  | nil => intro a b _ hm; simp at hm
  | cons p rest ih =>
      intro a b hnd hm
      obtain ⟨p1, p2⟩ := p
      rw [List.map_cons, List.nodup_cons] at hnd
      rw [List.lookup]
      rcases List.mem_cons.mp hm with heq | htl
      · cases heq
        simp
      · have hne : (a == p1) = false := by
          cases hab : (a == p1) with
          | false => rfl
          | true =>
              have ha : a = p1 := eq_of_beq hab
              have hmem : a ∈ List.map Prod.fst rest := List.mem_map_of_mem Prod.fst htl
              rw [ha] at hmem
              exact absurd hmem hnd.1
        rw [hne]
        exact ih hnd.2 htl

/-- C2: an edge event whose two endpoints are not both present in the Store
when it is processed contributes nothing: the load of any sequence
containing it equals the load with that event removed, so the edge is never
retrievable via parents_of or children_of, even when the missing endpoint
node arrives later in the load. -/
theorem edge_rejected_never_added (pre post : List EventLine) (f t : List Char)
    (h : ¬(hasNodeId (loadEvents pre) f = true ∧ hasNodeId (loadEvents pre) t = true)) :
    loadEvents (pre ++ EventLine.edge f t :: post) = loadEvents (pre ++ post)
    ∧ (∀ i, parentsOf (loadEvents (pre ++ EventLine.edge f t :: post)) i
          = parentsOf (loadEvents (pre ++ post)) i
        ∧ childrenOf (loadEvents (pre ++ EventLine.edge f t :: post)) i
          = childrenOf (loadEvents (pre ++ post)) i) := by
  have hcond : (hasNodeId (loadEvents pre) f && hasNodeId (loadEvents pre) t) = false := by
    cases hf : hasNodeId (loadEvents pre) f <;>
      cases ht : hasNodeId (loadEvents pre) t <;> simp_all
  have hstep : loadStep (loadEvents pre) (EventLine.edge f t) = loadEvents pre := by
    rw [loadStep, hcond]
    rfl
  have hmain : loadEvents (pre ++ EventLine.edge f t :: post) = loadEvents (pre ++ post) := by
    show List.foldl loadStep GraphModel.empty (pre ++ EventLine.edge f t :: post)
        = List.foldl loadStep GraphModel.empty (pre ++ post)
    rw [List.foldl_append, List.foldl_append, List.foldl_cons]
    show List.foldl loadStep (loadStep (loadEvents pre) (EventLine.edge f t)) post
        = List.foldl loadStep (loadEvents pre) post
    rw [hstep]
  exact ⟨hmain, fun i => ⟨by rw [hmain], by rw [hmain]⟩⟩

/-- Witness for C2: with only node a loaded, the edge a → x is dropped and
stays gone even though node x is loaded afterwards. -/
theorem edge_rejected_never_added_witness :
    loadEvents [nodeEv ['a'], EventLine.edge ['a'] ['x'], nodeEv ['x']]
      = loadEvents [nodeEv ['a'], nodeEv ['x']] :=
  (edge_rejected_never_added [nodeEv ['a']] [nodeEv ['x']] ['a'] ['x'] (by decide)).1

/-- C3: upserting under an id already in the Store overwrites the whole
payload in place (all five fields at once), keeps the id map and hence the
enumeration untouched, leaves every other slot unchanged, and preserves
uniqueness of ids. -/
theorem upsert_existing_overwrites (gm : GraphModel) (id : List Char) (nd : NodeData)
    (idx : Nat)
    (hu : UniqueIds gm) (hic : IndexConsistent gm)
    (hlk : gm.indices.lookup id = some idx) (hid : nd.id = id) :
    (upsertNode gm id nd).nodes = gm.nodes.set idx nd
    ∧ (upsertNode gm id nd).indices = gm.indices
    ∧ (upsertNode gm id nd).edges = gm.edges
    ∧ (upsertNode gm id nd).nodes.get? idx = some nd
    ∧ (upsertNode gm id nd).nodes.length = gm.nodes.length
    ∧ nodeIndices (upsertNode gm id nd) = nodeIndices gm
    ∧ (∀ j, j ≠ idx → (upsertNode gm id nd).nodes.get? j = gm.nodes.get? j)
    ∧ UniqueIds (upsertNode gm id nd) := by
  obtain ⟨nd0, hnd0, hnd0id⟩ := hic id idx hlk
  have hlt : idx < gm.nodes.length := by
    by_contra hge
    rw [List.get?_eq_none.mpr (Nat.le_of_not_lt hge)] at hnd0
    exact Option.noConfusion hnd0
  have hup : upsertNode gm id nd = { gm with nodes := gm.nodes.set idx nd } := by
    rw [upsertNode, hlk]
  refine ⟨by rw [hup], by rw [hup], by rw [hup], ?_, ?_, ?_, ?_, ?_⟩
  · rw [hup]
    exact get?_set_self gm.nodes idx nd hlt
  · rw [hup]
    exact List.length_set gm.nodes idx nd
  · rw [nodeIndices, nodeIndices, hup]
    show List.range (gm.nodes.set idx nd).length = List.range gm.nodes.length
    rw [List.length_set]
  · intro j hj
    rw [hup]
    exact get?_set_other gm.nodes idx j nd (fun hc => hj hc.symm)
  · intro j k nd1 nd2 hj hk hideq
    rw [hup] at hj hk
    by_cases hj0 : j = idx <;> by_cases hk0 : k = idx
    · rw [hj0, hk0]
    · have h1 : nd = nd1 := by
        rw [hj0, get?_set_self gm.nodes idx nd hlt] at hj
        exact Option.some.inj hj
      rw [get?_set_other gm.nodes idx k nd (fun hc => hk0 hc.symm)] at hk
      have hids : nd2.id = nd0.id := by
        rw [← hideq, ← h1, hid]
        exact hnd0id.symm
      exact absurd (hu k idx nd2 nd0 hk hnd0 hids) hk0
    · have h1 : nd = nd2 := by
        rw [hk0, get?_set_self gm.nodes idx nd hlt] at hk
        exact Option.some.inj hk
      rw [get?_set_other gm.nodes idx j nd (fun hc => hj0 hc.symm)] at hj
      have hids : nd1.id = nd0.id := by
        rw [hideq, ← h1, hid]
        exact hnd0id.symm
      exact absurd (hu j idx nd1 nd0 hj hnd0 hids) hj0
    · rw [get?_set_other gm.nodes idx j nd (fun hc => hj0 hc.symm)] at hj
      rw [get?_set_other gm.nodes idx k nd (fun hc => hk0 hc.symm)] at hk
      exact hu j k nd1 nd2 hj hk hideq

theorem gmA_uniqueIds : UniqueIds gmA := by
  intro j k nd1 nd2 hj hk _
  have hlen : gmA.nodes.length = 1 := rfl
  have hjl : j < gmA.nodes.length := by
    by_contra hge
    rw [List.get?_eq_none.mpr (Nat.le_of_not_lt hge)] at hj
    exact Option.noConfusion hj
  have hkl : k < gmA.nodes.length := by
    by_contra hge
    rw [List.get?_eq_none.mpr (Nat.le_of_not_lt hge)] at hk
    exact Option.noConfusion hk
  omega

theorem gmA_indexConsistent : IndexConsistent gmA := by
  intro id idx h
  have h2 : List.lookup id [(['a'], 0)] = some idx := h
  have hm := lookup_mem h2
  simp only [List.mem_singleton, Prod.mk.injEq] at hm
  exact ⟨{ id := ['a'], label := [], span := [], tags := [], ts := [] },
    by rw [hm.2]; rfl, by rw [hm.1]⟩

/-- Witness for C3: overwriting node a in a one-node store replaces the
whole payload and leaves the id map alone. -/
theorem upsert_existing_overwrites_witness :
    (upsertNode gmA ['a'] ndA2).nodes.get? 0 = some ndA2
    ∧ (upsertNode gmA ['a'] ndA2).indices = gmA.indices
    ∧ UniqueIds (upsertNode gmA ['a'] ndA2) :=
  ⟨(upsert_existing_overwrites gmA ['a'] ndA2 0 gmA_uniqueIds gmA_indexConsistent rfl rfl).2.2.2.1,
   (upsert_existing_overwrites gmA ['a'] ndA2 0 gmA_uniqueIds gmA_indexConsistent rfl rfl).2.1,
   (upsert_existing_overwrites gmA ['a'] ndA2 0 gmA_uniqueIds gmA_indexConsistent rfl rfl).2.2.2.2.2.2.2⟩

/-- C7: with a nonempty visible order and a valid selection, move-up wraps
from row 0 to the last row and otherwise steps back one, and move-down
wraps from the last row to 0 and otherwise steps forward one. -/
theorem move_selection_cyclic (app : App) (i : Nat)
    (hsel : app.selected = some i) (hlen : i < app.order.length) :
    ((i = 0 → (onUp app).selected = some (app.order.length - 1))
      ∧ (i ≠ 0 → (onUp app).selected = some (i - 1)))
    ∧ ((i = app.order.length - 1 → (onDown app).selected = some 0)
      ∧ (i ≠ app.order.length - 1 → (onDown app).selected = some (i + 1))) := by
  have hne : ¬app.order = [] := by
    intro h0
    rw [h0] at hlen
    exact Nat.not_lt_zero i hlen
  refine ⟨⟨?_, ?_⟩, ?_, ?_⟩
  · intro h0
    rw [onUp, if_neg hne]
    simp [hsel, h0]
  · intro h0
    rw [onUp, if_neg hne]
    simp [hsel, h0]
  · intro h0
    rw [onDown, if_neg hne]
    simp only [hsel, Option.getD_some]
    rw [if_pos (by omega)]
  · intro h0
    rw [onDown, if_neg hne]
    simp only [hsel, Option.getD_some]
    rw [if_neg (by omega)]

/-- Witness for C7: in a two-row list selected at row 0, move-up wraps to
row 1 and move-down advances to row 1. -/
theorem move_selection_cyclic_witness :
    (onUp (appNew gmAB)).selected = some 1 ∧ (onDown (appNew gmAB)).selected = some 1 := by
  have h := move_selection_cyclic (appNew gmAB) 0 rfl (by decide)
  exact ⟨(h.1.1 rfl).trans (by decide), (h.2.2 (by decide)).trans (by decide)⟩

/-- C10: when the visible order is empty, move-up and move-down leave the
whole session state unchanged. -/
theorem moves_noop_when_empty (app : App) (h : app.order = []) :
    onUp app = app ∧ onDown app = app := by
  constructor
  · rw [onUp, if_pos h]
  · rw [onDown, if_pos h]

/-- Witness for C10: the empty store gives an empty order, on which both
moves are identities. -/
theorem moves_noop_when_empty_witness :
    onUp (appNew GraphModel.empty) = appNew GraphModel.empty
    ∧ onDown (appNew GraphModel.empty) = appNew GraphModel.empty :=
  moves_noop_when_empty (appNew GraphModel.empty) rfl

/-- A query of pure whitespace trims to nothing. -/
theorem trimS_of_all_ws (q : List Char) (h : ∀ c ∈ q, c.isWhitespace = true) :
    trimS q = [] := by
  rw [trimS, List.dropWhile_eq_nil_iff.mpr h]
  rfl

/-- C9: apply_filter stores the trimmed, lowercased form of the typed
query, not the query itself, and a pure-whitespace query acts as the empty
filter, restoring the full enumeration. -/
theorem applyfilter_normalizes (app : App) (q : List Char) :
    (applyFilter app q).filter_text = lcS (trimS q)
    ∧ ((∀ c ∈ q, c.isWhitespace = true) → (applyFilter app q).order = nodeIndices app.gm) := by
  constructor
  · rfl
  · intro hws
    have ht : trimS q = [] := trimS_of_all_ws q hws
    show (if lcS (trimS q) = [] then nodeIndices app.gm
          else (nodeIndices app.gm).filter (fun i => matchesIdx app.gm i (lcS (trimS q))))
        = nodeIndices app.gm
    rw [ht]
    rfl

/-- Witness for C9: a one-blank query is pure whitespace and leaves the
full enumeration visible. -/
theorem applyfilter_normalizes_witness :
    (∀ c ∈ [' '], c.isWhitespace = true)
    ∧ (applyFilter (appNew gmAB) [' ']).order = nodeIndices gmAB :=
  ⟨by decide, (applyfilter_normalizes (appNew gmAB) [' ']).2 (by decide)⟩

/-- The empty needle is a substring of every haystack. -/
theorem containsSub_nil (s : List Char) : containsSub s [] = true := by
  cases s with
  | nil => rfl
  | cons c rest => rfl

/-- C4: after any apply_filter, the visible order is exactly the Store
enumeration filtered by the case-insensitive substring test of the stored
filter text against the space-joined concatenation of id, label, span and
tags; order among survivors is that of the enumeration. -/
theorem filter_is_enumeration_filter (app : App) (q : List Char) :
    (applyFilter app q).order
      = (nodeIndices app.gm).filter (fun i => matchesIdx app.gm i (lcS (trimS q))) := by
  show (if lcS (trimS q) = [] then nodeIndices app.gm
        else (nodeIndices app.gm).filter (fun i => matchesIdx app.gm i (lcS (trimS q))))
      = (nodeIndices app.gm).filter (fun i => matchesIdx app.gm i (lcS (trimS q)))
  by_cases hq : lcS (trimS q) = []
  · rw [if_pos hq, hq]
    symm
    apply List.filter_eq_self.mpr
    intro i hi
    rw [nodeIndices, List.mem_range] at hi
    rw [matchesIdx, List.get?_eq_get hi]
    exact containsSub_nil _
  · rw [if_neg hq]

theorem applyFilter_gm (app : App) (q : List Char) : (applyFilter app q).gm = app.gm := rfl

theorem onUp_gm (app : App) : (onUp app).gm = app.gm := by
  rw [onUp]
  split_ifs <;> rfl

theorem onDown_gm (app : App) : (onDown app).gm = app.gm := by
  rw [onDown]
  split_ifs <;> rfl

/-- No key event ever touches the graph store: the model is read-only from
the session loop. -/
theorem stepKey_gm (app : App) (k : KeyEv) : (stepKey app k).gm = app.gm := by
  rw [stepKey]
  cases hm : app.mode <;> cases hc : k.code <;>
    simp only [handleKey, hm, hc] <;>
    first
      | rfl
      | (split_ifs <;>
          first
            | rfl
            | exact onUp_gm app
            | exact onDown_gm app)
      | exact onUp_gm app
      | exact onDown_gm app

theorem foldl_stepKey_gm (es : List KeyEv) :
    ∀ a : App, (es.foldl stepKey a).gm = a.gm := by
  induction es with
  | nil => intro a; rfl
  | cons k rest ih =>
      intro a
      rw [List.foldl_cons, ih (stepKey a k), stepKey_gm]

/-- C6: whatever key events (filter edits included) have been processed
since startup, the clear-filter action (apply_filter of the empty string)
empties the stored filter text and restores the visible order to the full
Store enumeration, which is exactly the order before any filtering. -/
theorem clear_filter_restores (gm : GraphModel) (es : List KeyEv) :
    (applyFilter (es.foldl stepKey (appNew gm)) []).filter_text = []
    ∧ (applyFilter (es.foldl stepKey (appNew gm)) []).order = nodeIndices gm
    ∧ (appNew gm).order = nodeIndices gm := by
  have hgm : (es.foldl stepKey (appNew gm)).gm = gm := foldl_stepKey_gm es (appNew gm)
  refine ⟨rfl, ?_, rfl⟩
  have h1 : (applyFilter (es.foldl stepKey (appNew gm)) []).order
      = nodeIndices (es.foldl stepKey (appNew gm)).gm := rfl
  rw [h1, hgm]

/-- The reset-selection block always leaves a sane selection: none exactly
on the empty list, otherwise an in-range index. -/
theorem selOk_clampSel (app : App) (o : List Nat) (prev : Option Nat) (ft : List Char) :
    selOk { app with order := o, filter_text := ft, selected := clampSel o prev } = true := by
  rw [clampSel]
  split_ifs with h
  · simp only [selOk]
    cases o with
    | nil => rfl
    | cons x xs => simp at h
  · simp only [selOk, decide_eq_true_eq]
    have h1 : min (prev.getD 0) (o.length - 1) ≤ o.length - 1 := Nat.min_le_right _ _
    omega

theorem selOk_applyFilter (app : App) (q : List Char) : selOk (applyFilter app q) = true :=
  selOk_clampSel app _ app.selected _

theorem selOk_onUp (app : App) (h : selOk app = true) : selOk (onUp app) = true := by
  rw [onUp]
  split_ifs with he
  · exact h
  · have hl0 : app.order.length ≠ 0 := by
      cases ho : app.order with
      | nil => exact absurd ho he
      | cons x xs => simp
    cases hs : app.selected with
    | none =>
        simp only [selOk, hs, List.isEmpty_iff] at h
        exact absurd h he
    | some i =>
        simp only [selOk, hs, decide_eq_true_eq] at h
        simp only [selOk, hs, Option.getD_some, decide_eq_true_eq]
        split_ifs with h0 <;> omega

theorem selOk_onDown (app : App) (h : selOk app = true) : selOk (onDown app) = true := by
  rw [onDown]
  split_ifs with he
  · exact h
  · have hl0 : app.order.length ≠ 0 := by
      cases ho : app.order with
      | nil => exact absurd ho he
      | cons x xs => simp
    cases hs : app.selected with
    | none =>
        simp only [selOk, hs, List.isEmpty_iff] at h
        exact absurd h he
    | some i =>
        simp only [selOk, hs, decide_eq_true_eq] at h
        simp only [selOk, hs, Option.getD_some, decide_eq_true_eq]
        split_ifs with h0 <;> omega

/-- C5: every transition of the session state machine preserves selection
sanity: afterwards the selected index, when present, is below the visible
order's length, and it is absent exactly when the visible order is empty
(in particular a filter that empties the list clears the selection, and
otherwise the index is clamped into range). -/
theorem selection_valid_after_transition (app : App) (k : KeyEv) (h : selOk app = true) :
    selOk (stepKey app k) = true := by
  rw [stepKey]
  cases hm : app.mode <;> cases hc : k.code <;>
    simp only [handleKey, hm, hc] <;>
    first
      | exact h
      | exact selOk_onUp app h
      | exact selOk_onDown app h
      | exact selOk_applyFilter _ _
      | (split_ifs <;>
          first
            | exact h
            | exact selOk_onUp app h
            | exact selOk_onDown app h
            | exact selOk_applyFilter _ _)

/-- Witness for C5: the initial two-row state is sane and stays sane after
a move-up. -/
theorem selection_valid_after_transition_witness :
    selOk (appNew gmAB) = true
    ∧ selOk (stepKey (appNew gmAB) { code := KCode.up, ctrl := false }) = true :=
  ⟨by decide,
   selection_valid_after_transition (appNew gmAB) { code := KCode.up, ctrl := false } (by decide)⟩


theorem insUniq_nodup (layer : List Nat) (p : Nat) (h : layer.Nodup) :
    (insUniq layer p).Nodup := by
  rw [insUniq]
  split_ifs with hm
  · exact h
  · rw [List.nodup_append]
    refine ⟨h, List.nodup_singleton p, ?_⟩
    intro a ha hb
    rw [List.mem_singleton] at hb
    rw [hb] at ha
    exact hm ha

theorem foldl_insUniq_nodup :
    ∀ (l : List Nat) (acc : List Nat), acc.Nodup → (l.foldl insUniq acc).Nodup := by
  intro l
  induction l with
  | nil => intro acc h; exact h
  | cons x xs ih => intro acc h; exact ih (insUniq acc x) (insUniq_nodup acc x h)

theorem stepLayer_nodup_from (nbrs : Nat → List Nat) :
    ∀ (frontier : List Nat) (acc : List Nat), acc.Nodup →
      (frontier.foldl (fun layer n => (nbrs n).foldl insUniq layer) acc).Nodup := by
  intro frontier
  induction frontier with
  | nil => intro acc h; exact h
  | cons x xs ih => intro acc h; exact ih _ (foldl_insUniq_nodup (nbrs x) acc h)

theorem stepLayer_nodup (nbrs : Nat → List Nat) (frontier : List Nat) :
    (stepLayer nbrs frontier).Nodup :=
  stepLayer_nodup_from nbrs frontier [] List.nodup_nil

theorem buildLoop_layers_nodup (nbrs : Nat → List Nat) :
    ∀ (d : Nat) (frontier : List Nat) (acc : List (List Nat)),
      (∀ L ∈ acc, L.Nodup) → ∀ L ∈ buildLoop nbrs d frontier acc, L.Nodup := by
  intro d
  induction d with
  | zero => intro frontier acc h; exact h
  | succ d2 ih =>
      intro frontier acc h
      simp only [buildLoop]
      split_ifs with he
      · exact h
      · apply ih
        intro L hL
        rcases List.mem_append.mp hL with h1 | h2
        · exact h L h1
        · rw [List.mem_singleton] at h2
          rw [h2]
          exact stepLayer_nodup nbrs frontier

/-- C1 (amended): within any single layer, in either direction, no node
identity appears twice (the push is guarded by a membership test); but the
traversal keeps no cross-layer visited set, so a node may be re-added at a
greater distance in the same direction — see the counterexample. -/
theorem layers_nodup_per_layer (gm : GraphModel) (c d : Nat) :
    (∀ L ∈ parentsLayers gm c d, L.Nodup) ∧ (∀ L ∈ childrenLayers gm c d, L.Nodup) :=
  ⟨buildLoop_layers_nodup (parentsOf gm) d [c] []
      (fun L hL => absurd hL (List.not_mem_nil L)),
   buildLoop_layers_nodup (childrenOf gm) d [c] []
      (fun L hL => absurd hL (List.not_mem_nil L))⟩

/-- Witness for C1 (amended): the first descendant layer of a in the
two-path store is [c, b] and is duplicate-free. -/
theorem layers_nodup_per_layer_witness :
    ([2, 1] ∈ childrenLayers gmABC 0 2) ∧ List.Nodup [2, 1] :=
  ⟨by decide, (layers_nodup_per_layer gmABC 0 2).2 [2, 1] (by decide)⟩

/-- C1 counterexample: in the store with edges a → b, a → c, b → c, the
descendant layers of a at depth 2 are [[c, b], [c]]: node c (index 2) is
placed at distance 1 and re-added at distance 2 through b, so a node
identity appears twice across the descendant layers combined. -/
theorem layering_cross_layer_dup :
    childrenLayers gmABC 0 2 = [[2, 1], [2]]
    ∧ ¬(List.flatten (childrenLayers gmABC 0 2)).Nodup := by
  exact ⟨by decide, by decide⟩

theorem placeLayerAux_fst (x : ℚ) :
    ∀ (l : List Nat) (y : ℚ), (placeLayerAux x y l).map Prod.fst = l := by
  intro l
  induction l with
  | nil => intro y; rfl
  | cons n rest ih => intro y; rw [placeLayerAux, List.map_cons, ih]

theorem placeLayers_fst (colStep : ℚ) :
    ∀ (L : List (List Nat)) (x0 : ℚ),
      (placeLayers x0 colStep L).map Prod.fst = L.flatten := by
  intro L
  induction L with
  | nil => intro x0; rfl
  | cons lay rest ih =>
      intro x0
      rw [placeLayers, List.map_append, placeLayer, placeLayerAux_fst, ih, List.flatten_cons]

theorem placeLayerAux_mem (x : ℚ) :
    ∀ (l : List Nat) (y : ℚ) (j n : Nat), l.get? j = some n →
      (n, (x, y + (j : ℚ))) ∈ placeLayerAux x y l := by
  intro l
  induction l with
  | nil => intro y j n h; simp at h
  | cons m rest ih =>
      intro y j n h
      cases j with
      | zero =>
          rw [List.get?_cons_zero] at h
          have hm : m = n := Option.some.inj h
          have hy : y + ((0 : Nat) : ℚ) = y := by push_cast; ring
          rw [placeLayerAux, hy, ← hm]
          exact List.mem_cons_self _ _
      | succ j2 =>
          rw [List.get?_cons_succ] at h
          rw [placeLayerAux]
          apply List.mem_cons_of_mem
          have hy : y + ((j2 + 1 : Nat) : ℚ) = (y + 1) + (j2 : ℚ) := by push_cast; ring
          rw [hy]
          exact ih (y + 1) j2 n h

theorem placeLayers_mem (colStep : ℚ) :
    ∀ (L : List (List Nat)) (x0 : ℚ) (k : Nat) (layer : List Nat),
      L.get? k = some layer →
      ∀ (j n : Nat), layer.get? j = some n →
        (n, (x0 + colStep * (k : ℚ), 25 - (layer.length : ℚ) / 2 + (j : ℚ)))
          ∈ placeLayers x0 colStep L := by
  intro L
  induction L with
  | nil => intro x0 k layer h; simp at h
  | cons lay rest ih =>
      intro x0 k layer h j n hj
      cases k with
      | zero =>
          rw [List.get?_cons_zero] at h
          have hl : lay = layer := Option.some.inj h
          rw [placeLayers]
          apply List.mem_append_left
          have hx : x0 + colStep * ((0 : Nat) : ℚ) = x0 := by push_cast; ring
          rw [hx, hl, placeLayer]
          exact placeLayerAux_mem x0 layer _ j n hj
      | succ k2 =>
          rw [List.get?_cons_succ] at h
          rw [placeLayers]
          apply List.mem_append_right
          have hx : x0 + colStep * ((k2 + 1 : Nat) : ℚ)
              = (x0 + colStep) + colStep * (k2 : ℚ) := by push_cast; ring
          rw [hx]
          exact ih (x0 + colStep) k2 layer h j n hj

theorem layoutNodes_fst (gm : GraphModel) (c depth : Nat) :
    (layoutNodes gm c depth).map Prod.fst
      = (parentsLayers gm c depth).reverse.flatten ++ c :: (childrenLayers gm c depth).flatten := by
  rw [layoutNodes, List.map_append, placeLayers_fst, List.map_cons, placeLayers_fst]

theorem findPos_eq_of_mem (ps : List (Nat × (ℚ × ℚ))) (n : Nat) (p : ℚ × ℚ)
    (hnd : (ps.map Prod.fst).Nodup) (hm : (n, p) ∈ ps) : findPos ps n = some p := by
  rw [findPos]
  apply lookup_eq_of_mem_nodup
  · rw [List.map_reverse]
    exact List.nodup_reverse.mpr hnd
  · exact List.mem_reverse.mpr hm

theorem buildLoop_length (nbrs : Nat → List Nat) :
    ∀ (d : Nat) (frontier : List Nat) (acc : List (List Nat)),
      (buildLoop nbrs d frontier acc).length ≤ acc.length + d := by
  intro d
  induction d with
  | zero => intro frontier acc; exact Nat.le_add_right _ _
  | succ d2 ih =>
      intro frontier acc
      simp only [buildLoop]
      split_ifs with he
      · exact Nat.le_add_right _ _
      · calc (buildLoop nbrs d2 (stepLayer nbrs frontier) (acc ++ [stepLayer nbrs frontier])).length
            ≤ (acc ++ [stepLayer nbrs frontier]).length + d2 := ih _ _
          _ = acc.length + (d2 + 1) := by
              rw [List.length_append, List.length_singleton]
              omega

theorem get?_some_lt {α : Type} {l : List α} {i : Nat} {a : α}
    (h : l.get? i = some a) : i < l.length := by
  by_contra hge
  rw [List.get?_eq_none.mpr (Nat.le_of_not_lt hge)] at h
  exact Option.noConfusion h

/-- C8 (amended): when no node is placed twice (each node in at most one
layer and the focal node in no layer, the Nodup hypothesis), the depth-2
layout puts the focal node at the fixed center (50, 25); the ancestor
layer at index k of the outermost-first run sits in the column
x = 10 + 15 k, strictly left of center, and the descendant layer at depth
k + 1 sits in the column x = 70 + 15 k, strictly right of center — a
constant 15-unit step per layer depth; and a layer of m nodes occupies m
consecutive vertical slots one unit apart starting at y = 25 - m/2, a
stack centered one-half unit below the canvas's vertical midpoint rather
than on it. -/
theorem layout_columns (gm : GraphModel) (c : Nat)
    (hnd : ((parentsLayers gm c 2).reverse.flatten
        ++ c :: (childrenLayers gm c 2).flatten).Nodup) :
    findPos (layoutNodes gm c 2) c = some (50, 25)
    ∧ (∀ k layer, (parentsLayers gm c 2).reverse.get? k = some layer →
        ∀ j n, layer.get? j = some n →
          findPos (layoutNodes gm c 2) n
            = some (10 + 15 * (k : ℚ), 25 - (layer.length : ℚ) / 2 + (j : ℚ))
          ∧ (10 : ℚ) + 15 * (k : ℚ) < 50)
    ∧ (∀ k layer, (childrenLayers gm c 2).get? k = some layer →
        ∀ j n, layer.get? j = some n →
          findPos (layoutNodes gm c 2) n
            = some (70 + 15 * (k : ℚ), 25 - (layer.length : ℚ) / 2 + (j : ℚ))
          ∧ (50 : ℚ) < 70 + 15 * (k : ℚ)) := by
  have hkeys : ((layoutNodes gm c 2).map Prod.fst).Nodup := by
    rw [layoutNodes_fst]
    exact hnd
  refine ⟨?_, ?_, ?_⟩
  · apply findPos_eq_of_mem _ _ _ hkeys
    rw [layoutNodes]
    exact List.mem_append_right _ (List.mem_cons_self _ _)
  · intro k layer hk j n hj
    constructor
    · apply findPos_eq_of_mem _ _ _ hkeys
      rw [layoutNodes]
      apply List.mem_append_left
      exact placeLayers_mem 15 (parentsLayers gm c 2).reverse 10 k layer hk j n hj
    · have hk1 : k < (parentsLayers gm c 2).reverse.length := get?_some_lt hk
      rw [List.length_reverse] at hk1
      have hk2 : (parentsLayers gm c 2).length ≤ 2 := buildLoop_length (parentsOf gm) 2 [c] []
      have hkq : (k : ℚ) ≤ 1 := by
        have : k ≤ 1 := by omega
        exact_mod_cast this
      linarith
  · intro k layer hk j n hj
    constructor
    · apply findPos_eq_of_mem _ _ _ hkeys
      rw [layoutNodes]
      apply List.mem_append_right
      apply List.mem_cons_of_mem
      exact placeLayers_mem 15 (childrenLayers gm c 2) 70 k layer hk j n hj
    · have hkq : (0 : ℚ) ≤ (k : ℚ) := Nat.cast_nonneg k
      linarith

/-- Witness for C8 (amended): in the one-edge store a → b focused on b no
node is placed twice, and the focal node lands at the center (50, 25). -/
theorem layout_columns_witness :
    findPos (layoutNodes gmAB 1 2) 1 = some (50, 25) :=
  (layout_columns gmAB 1 (by decide)).1

/-- C8 counterexample: in the store with the single edge a → b focused on
b, the unique ancestor layer holds exactly one node (a, index 0); a stack
of one node centered on the canvas's vertical midpoint would sit at
y = 25, but the code places it at y = 49/2 = 24.5, half a unit below, so
the layer is not centered on the midpoint as the claim states. -/
theorem layout_not_midpoint_centered :
    findPos (layoutNodes gmAB 1 2) 0 = some (10, 49 / 2)
    ∧ (49 : ℚ) / 2 ≠ 25 := by
  constructor
  · have hp : parentsLayers gmAB 1 2 = [[0]] := by decide
    have hc : childrenLayers gmAB 1 2 = [] := by decide
    rw [findPos, layoutNodes, hp, hc]
    have h1 : placeLayers 10 15 [[0]].reverse = [(0, (10, 49 / 2))] := by
      simp [placeLayers, placeLayer, placeLayerAux]
      norm_num
    rw [h1]
    simp [List.lookup, placeLayers]
  · norm_num
